import Mathlib

/-!
Verification of the FPL-Discord repository against its specification.

The development shallowly embeds the data-aggregation logic of
`src/bga_stats.py` (Board Game Arena statistics tracker) and the
formatting/webhook logic of `src/fpl_price.py` (LiveFPL price notifier).

Python dictionaries are modelled as association lists in insertion order:
assignment `d[k] = v` replaces the value at the first occurrence of `k`,
or appends `(k, v)` at the end when `k` is absent, exactly as CPython
dictionaries behave.  Python integers are modelled as `Int`; Python
strings appearing in `bga_stats.py` as `String`, and the character-level
string manipulation of `fpl_price.py` as `List Char`.
-/

namespace FPLDiscord

/-- Lookup in an association list: the value at the first occurrence of the
key, mirroring Python `d[k]` / `k in d`. -/
def lookupA {α : Type} (l : List (String × α)) (k : String) : Option α :=
  match l with
  | [] => none
  | (k1, v) :: t => if k1 = k then some v else lookupA t k

/-- Assignment in an association list: replace the value at the first
occurrence of the key, or append at the end when the key is absent —
Python dict assignment `d[k] = v` (insertion order preserved). -/
def setA {α : Type} (l : List (String × α)) (k : String) (v : α) : List (String × α) :=
  match l with
  | [] => [(k, v)]
  | (k1, v1) :: t => if k1 = k then (k, v) :: t else (k1, v1) :: setA t k v

/-- Per-player counter record, the Python dict
`{'win': _, 'second': _, 'last': _, 'total': _}` kept in
`database['games'][game_id]['users'][user]` (`src/bga_stats.py`,
`_find_common_games`).  Python integers are modelled as `Int`. -/
@[ext] structure Counts where
  win : Int
  second : Int
  last : Int
  total : Int
deriving DecidableEq, Repr

/-- The zero counter, the implicit starting point of every counter. -/
def czero : Counts := ⟨0, 0, 0, 0⟩

/-- Componentwise addition of counters. -/
def Counts.add (a b : Counts) : Counts :=
  ⟨a.win + b.win, a.second + b.second, a.last + b.last, a.total + b.total⟩

/-- Map from user name to counters: the Python dict
`database['games'][game_id]['users']`. -/
abbrev Users := List (String × Counts)

/-- One entry of `database['games']`: the dict
`{'game_name': _, 'users': {...}}` created in `_find_common_games`. -/
@[ext] structure GameEntry where
  game_name : String
  users : Users
deriving DecidableEq, Repr

/-- The `database['games']` mapping from game id to its entry. -/
abbrev Games := List (String × GameEntry)

/-- The persisted database `{'games': {...}, 'last_update': ...}`
(`_load_database` / `_save_database` in `src/bga_stats.py`). -/
@[ext] structure Db where
  games : Games
  last_update : Option String
deriving DecidableEq, Repr

/-- The empty database returned by `_load_database` when no file is
present: `{'games': {}, 'last_update': None}`. -/
def emptyDb : Db := ⟨[], none⟩

/-- One deduplicated match record, the dict stored in
`self._game_history[table_id]` by `_get_common_game`
(`src/bga_stats.py` lines 226-236). -/
@[ext] structure GameRecord where
  game_id : String
  game_name : String
  table_id : String
  winners : List String
  runner_ups : List String
  losers : List String
  lasts : List String
deriving DecidableEq, Repr

/-- Common shape of the four per-category update blocks of
`_find_common_games`: if the user is absent insert `init`, otherwise
replace their counters by `bump` of the old counters. -/
def updWith (init : Counts) (bump : Counts → Counts) (users : Users) (u : String) : Users :=
  match lookupA users u with
  | none => setA users u init
  | some c => setA users u (bump c)

/-- The `for winner in winners` block of `_find_common_games`
(lines 373-378): fresh entry `{'win':1,'second':0,'last':0,'total':1}`,
otherwise `win += 1; total += 1`. -/
def applyWinner (users : Users) (u : String) : Users :=
  updWith ⟨1, 0, 0, 1⟩ (fun c => ⟨c.win + 1, c.second, c.last, c.total + 1⟩) users u

/-- The `for runner_up in runner_ups` block (lines 380-385): fresh entry
`{'win':0,'second':1,'last':0,'total':1}`, otherwise
`second += 1; total += 1`. -/
def applyRunnerUp (users : Users) (u : String) : Users :=
  updWith ⟨0, 1, 0, 1⟩ (fun c => ⟨c.win, c.second + 1, c.last, c.total + 1⟩) users u

/-- The `for loser in losers` block (lines 387-391): fresh entry
`{'win':0,'second':0,'last':0,'total':1}`, otherwise `total += 1`. -/
def applyLoser (users : Users) (u : String) : Users :=
  updWith ⟨0, 0, 0, 1⟩ (fun c => ⟨c.win, c.second, c.last, c.total + 1⟩) users u

/-- The `for last in lasts` block (lines 393-398): fresh entry
`{'win':0,'second':0,'last':1,'total':1}`, otherwise
`total += 1; last += 1`. -/
def applyLast (users : Users) (u : String) : Users :=
  updWith ⟨0, 0, 1, 1⟩ (fun c => ⟨c.win, c.second, c.last + 1, c.total + 1⟩) users u

/-- Processing of one match record by the body of the
`for _, game in self._game_history.items()` loop of `_find_common_games`
(lines 359-398): create the game entry if absent, then run the four
per-category blocks over its user map. -/
def applyRecord (games : Games) (g : GameRecord) : Games :=
  match lookupA games g.game_id with
  | none =>
    setA games g.game_id
      ⟨g.game_name,
        g.lasts.foldl applyLast
          (g.losers.foldl applyLoser
            (g.runner_ups.foldl applyRunnerUp
              (g.winners.foldl applyWinner [])))⟩
  | some e =>
    setA games g.game_id
      ⟨e.game_name,
        g.lasts.foldl applyLast
          (g.losers.foldl applyLoser
            (g.runner_ups.foldl applyRunnerUp
              (g.winners.foldl applyWinner e.users)))⟩

/-- The `_find_common_games` aggregation (`src/bga_stats.py` lines
346-400): fold every record of the in-memory game history into
`database['games']`.  The history dict is passed as the list of its
values in insertion order. -/
def find_common_games (history : List GameRecord) (database : Db) : Db :=
  { database with games := history.foldl applyRecord database.games }

/-- The `_categorize_by_elo` tier classifier (`src/bga_stats.py` lines
321-344), translated branch for branch. -/
def categorize_by_elo (elo : Option Int) : String :=
  match elo with
  | none => "<500"
  | some e =>
    if e > 800 then ">800"
    else if e >= 700 then "700-800"
    else if e >= 600 then "600-700"
    else if e >= 500 then "500-600"
    else "<500"

/-- Claim C2: `_categorize_by_elo` is a pure, total function of its
numeric input against fixed thresholds: it returns ">800" exactly when
the ELO offset is greater than 800, "700-800" when it is at least 700
and at most 800, "600-700" when it is at least 600 and below 700,
"500-600" when it is at least 500 and below 600, and "<500" when it is
below 500 or the input is `None`. -/
theorem categorize_by_elo_spec :
    categorize_by_elo none = "<500" ∧ ∀ e : Int,
      (categorize_by_elo (some e) = ">800" ↔ 800 < e) ∧
      (categorize_by_elo (some e) = "700-800" ↔ (700 ≤ e ∧ e ≤ 800)) ∧
      (categorize_by_elo (some e) = "600-700" ↔ (600 ≤ e ∧ e < 700)) ∧
      (categorize_by_elo (some e) = "500-600" ↔ (500 ≤ e ∧ e < 600)) ∧
      (categorize_by_elo (some e) = "<500" ↔ e < 500) := by
  refine ⟨rfl, fun e => ?_⟩
  simp only [categorize_by_elo]
  split_ifs with h1 h2 h3 h4 <;>
    refine ⟨?_, ?_, ?_, ?_, ?_⟩ <;>
    constructor <;>
    intro h <;>
    first
      | rfl
      | omega
      | exact absurd h (by decide)

/-- Counter value of a user in a user map, taking the zero counter when
the user is absent.  This is the quantity every update block of
`_find_common_games` acts on. -/
def uGet (users : Users) (u : String) : Counts :=
  (lookupA users u).getD czero

/-- Counter value of a user for a game id in a games map. -/
def gamesGet (games : Games) (gid u : String) : Counts :=
  match lookupA games gid with
  | none => czero
  | some e => uGet e.users u

/-- Counter value of a user for a game id in the database: the win,
second, last and total counts the database holds for that player and
game. -/
def cGetDb (db : Db) (gid u : String) : Counts :=
  gamesGet db.games gid u

/-- Scalar multiple of a counter by a natural number. -/
def Counts.nsum (n : Nat) (d : Counts) : Counts :=
  ⟨(n : Int) * d.win, (n : Int) * d.second, (n : Int) * d.last, (n : Int) * d.total⟩

theorem Counts.add_czero (x : Counts) : Counts.add x czero = x := by
  ext <;> simp [Counts.add, czero]

theorem Counts.czero_add (x : Counts) : Counts.add czero x = x := by
  ext <;> simp [Counts.add, czero]

theorem Counts.add_assoc (x y z : Counts) :
    Counts.add (Counts.add x y) z = Counts.add x (Counts.add y z) := by
  ext <;> simp [Counts.add] <;> ring

theorem Counts.add_left_comm (x y z : Counts) :
    Counts.add x (Counts.add y z) = Counts.add y (Counts.add x z) := by
  ext <;> simp [Counts.add] <;> ring

theorem Counts.add_nsum_succ (x d : Counts) (n : Nat) :
    Counts.add (Counts.add x d) (Counts.nsum n d) = Counts.add x (Counts.nsum (n + 1) d) := by
  ext <;> simp [Counts.add, Counts.nsum] <;> push_cast <;> ring

theorem Counts.add_nsum_zero (x d : Counts) :
    Counts.add x (Counts.nsum 0 d) = x := by
  ext <;> simp [Counts.add, Counts.nsum]

theorem lookupA_setA {α : Type} (l : List (String × α)) (k k1 : String) (v : α) :
    lookupA (setA l k v) k1 = if k = k1 then some v else lookupA l k1 := by
  induction l with
  | nil =>
    by_cases h1 : k = k1 <;> simp [setA, lookupA, h1]
  | cons p t ih =>
    obtain ⟨k2, v2⟩ := p
    by_cases h : k2 = k
    · subst h
      by_cases h1 : k2 = k1 <;> simp [setA, lookupA, h1]
    · by_cases h1 : k2 = k1
      · subst h1
        have hk : ¬ k = k2 := fun hh => h hh.symm
        simp [setA, lookupA, h, hk]
      · simp [setA, lookupA, h, h1, ih]

theorem lookupA_append {α : Type} (l1 l2 : List (String × α)) (k : String) :
    lookupA (l1 ++ l2) k =
      match lookupA l1 k with
      | none => lookupA l2 k
      | some v => some v := by
  induction l1 with
  | nil => simp [lookupA]
  | cons p t ih =>
    obtain ⟨k1, v1⟩ := p
    by_cases h : k1 = k <;> simp [lookupA, h, ih]

theorem uGet_updWith (init : Counts) (bump : Counts → Counts) (delta : Counts)
    (hinit : init = Counts.add czero delta)
    (hbump : ∀ c, bump c = Counts.add c delta)
    (users : Users) (w u : String) :
    uGet (updWith init bump users w) u =
      if w = u then Counts.add (uGet users u) delta else uGet users u := by
  unfold updWith
  cases hl : lookupA users w with
  | none =>
    by_cases h : w = u
    · subst h
      simp [uGet, lookupA_setA, hl, hinit]
    · simp [uGet, lookupA_setA, h]
  | some c =>
    by_cases h : w = u
    · subst h
      simp [uGet, lookupA_setA, hl, hbump]
    · simp [uGet, lookupA_setA, h]

theorem uGet_foldl_updWith (init : Counts) (bump : Counts → Counts) (delta : Counts)
    (hinit : init = Counts.add czero delta)
    (hbump : ∀ c, bump c = Counts.add c delta)
    (ws : List String) (users : Users) (u : String) :
    uGet (ws.foldl (updWith init bump) users) u =
      Counts.add (uGet users u) (Counts.nsum (ws.count u) delta) := by
  induction ws generalizing users with
  | nil => simp [Counts.add_nsum_zero]
  | cons w ws ih =>
    rw [List.foldl_cons, ih, uGet_updWith init bump delta hinit hbump]
    by_cases h : w = u
    · subst h
      rw [if_pos rfl, Counts.add_nsum_succ]
      have : (w :: ws).count w = ws.count w + 1 := by
        simp [List.count_cons]
      rw [this]
    · rw [if_neg h]
      have : (w :: ws).count u = ws.count u := by
        simp [List.count_cons, h]
      rw [this]

/-- Additive contribution of one match record to the counters of one
player in one game: how many times the player appears among the record's
winners, runner-ups and lasts, and its appearances in all four lists for
the total. -/
def contrib (g : GameRecord) (gid u : String) : Counts :=
  if g.game_id = gid then
    ⟨(g.winners.count u : Int),
     (g.runner_ups.count u : Int),
     (g.lasts.count u : Int),
     ((g.winners.count u : Int) + (g.runner_ups.count u : Int) +
       (g.losers.count u : Int) + (g.lasts.count u : Int))⟩
  else czero

theorem uGet_applyWinner_foldl (ws : List String) (users : Users) (u : String) :
    uGet (ws.foldl applyWinner users) u =
      Counts.add (uGet users u) (Counts.nsum (ws.count u) ⟨1, 0, 0, 1⟩) := by
  apply uGet_foldl_updWith
  · ext <;> simp [Counts.add, czero]
  · intro c; ext <;> simp [Counts.add]

theorem uGet_applyRunnerUp_foldl (ws : List String) (users : Users) (u : String) :
    uGet (ws.foldl applyRunnerUp users) u =
      Counts.add (uGet users u) (Counts.nsum (ws.count u) ⟨0, 1, 0, 1⟩) := by
  apply uGet_foldl_updWith
  · ext <;> simp [Counts.add, czero]
  · intro c; ext <;> simp [Counts.add]

theorem uGet_applyLoser_foldl (ws : List String) (users : Users) (u : String) :
    uGet (ws.foldl applyLoser users) u =
      Counts.add (uGet users u) (Counts.nsum (ws.count u) ⟨0, 0, 0, 1⟩) := by
  apply uGet_foldl_updWith
  · ext <;> simp [Counts.add, czero]
  · intro c; ext <;> simp [Counts.add]

theorem uGet_applyLast_foldl (ws : List String) (users : Users) (u : String) :
    uGet (ws.foldl applyLast users) u =
      Counts.add (uGet users u) (Counts.nsum (ws.count u) ⟨0, 0, 1, 1⟩) := by
  apply uGet_foldl_updWith
  · ext <;> simp [Counts.add, czero]
  · intro c; ext <;> simp [Counts.add]

theorem gamesGet_applyRecord (games : Games) (g : GameRecord) (gid u : String) :
    gamesGet (applyRecord games g) gid u =
      Counts.add (gamesGet games gid u) (contrib g gid u) := by
  unfold applyRecord
  cases hl : lookupA games g.game_id with
  | none =>
    by_cases h : g.game_id = gid
    · subst h
      unfold gamesGet
      rw [lookupA_setA, if_pos rfl, hl]
      dsimp only
      rw [uGet_applyLast_foldl, uGet_applyLoser_foldl, uGet_applyRunnerUp_foldl,
        uGet_applyWinner_foldl]
      simp only [contrib, if_pos rfl]
      have hnil : uGet [] u = czero := by simp [uGet, lookupA]
      rw [hnil]
      ext <;> simp [Counts.add, Counts.nsum, czero] <;> push_cast <;> ring
    · simp only [gamesGet, lookupA_setA, if_neg h, contrib, Counts.add_czero]
  | some e =>
    by_cases h : g.game_id = gid
    · subst h
      unfold gamesGet
      rw [lookupA_setA, if_pos rfl, hl]
      dsimp only
      rw [uGet_applyLast_foldl, uGet_applyLoser_foldl, uGet_applyRunnerUp_foldl,
        uGet_applyWinner_foldl]
      simp only [contrib, if_pos rfl]
      ext <;> simp [Counts.add, Counts.nsum, czero] <;> push_cast <;> ring
    · simp only [gamesGet, lookupA_setA, if_neg h, contrib, Counts.add_czero]

/-- Total contribution of a history of match records to one player's
counters in one game. -/
def contribSum (history : List GameRecord) (gid u : String) : Counts :=
  history.foldr (fun g acc => Counts.add (contrib g gid u) acc) czero

theorem gamesGet_foldl (history : List GameRecord) (games : Games) (gid u : String) :
    gamesGet (history.foldl applyRecord games) gid u =
      Counts.add (gamesGet games gid u) (contribSum history gid u) := by
  induction history generalizing games with
  | nil => simp [contribSum, Counts.add_czero]
  | cons g history ih =>
    rw [List.foldl_cons, ih, gamesGet_applyRecord]
    show _ = Counts.add _ (contribSum (g :: history) gid u)
    have : contribSum (g :: history) gid u =
        Counts.add (contrib g gid u) (contribSum history gid u) := rfl
    rw [this, Counts.add_assoc, Counts.add_left_comm]

theorem contribSum_perm {l1 l2 : List GameRecord} (h : l1.Perm l2) (gid u : String) :
    contribSum l1 gid u = contribSum l2 gid u := by
  induction h with
  | nil => rfl
  | cons x _ ih =>
    show Counts.add (contrib x gid u) (contribSum _ gid u) =
      Counts.add (contrib x gid u) (contribSum _ gid u)
    rw [ih]
  | swap x y l =>
    show Counts.add (contrib y gid u) (Counts.add (contrib x gid u) _) =
      Counts.add (contrib x gid u) (Counts.add (contrib y gid u) _)
    rw [Counts.add_left_comm]
  | trans _ _ ih1 ih2 => exact ih1.trans ih2

/-- Claim C3: aggregation through `_find_common_games` is associative and
commutative across repeated incremental runs: for a collection of
distinct match records, the per-player counts folded into the database
do not depend on the processing order, and folding a concatenation of
runs equals folding the runs one after the other. -/
theorem find_common_games_assoc_comm (l1 l2 : List GameRecord)
    (hperm : l1.Perm l2) (_hnd : l1.Nodup) (db : Db) :
    (∀ gid u, cGetDb (find_common_games l1 db) gid u =
      cGetDb (find_common_games l2 db) gid u) ∧
    (∀ la lb : List GameRecord,
      find_common_games (la ++ lb) db = find_common_games lb (find_common_games la db)) := by
  constructor
  · intro gid u
    simp only [cGetDb, find_common_games]
    rw [gamesGet_foldl, gamesGet_foldl, contribSum_perm hperm]
  · intro la lb
    simp only [find_common_games, List.foldl_append]

/-- Whitespace test of Python `str.strip()`: ASCII whitespace plus the
no-break space; no other Unicode whitespace occurs in the modelled
strings. -/
def isPySpace (c : Char) : Bool :=
  c = ' ' || c = '\t' || c = '\n' || c = '\r' || c = '\x0b' || c = '\x0c' || c = '\u00A0'

/-- Python `str.strip()` on a character list: drop whitespace from both
ends. -/
def stripChars (s : List Char) : List Char :=
  ((s.dropWhile isPySpace).reverse.dropWhile isPySpace).reverse

/-- ASCII digit test, Python `str.isdigit()` on ASCII strings. -/
def isDigitChar (c : Char) : Bool :=
  '0' ≤ c && c ≤ '9'

/-- Python `int(s)` on an all-digit string, `None` when
`s.isdigit()` is false — models the guarded conversion
`int(rank.strip()) for rank in rankings if rank.strip().isdigit()`. -/
def parseDigits (s : List Char) : Option Nat :=
  if s ≠ [] ∧ s.all isDigitChar then
    some (s.foldl (fun n c => 10 * n + (c.toNat - Char.toNat '0')) 0)
  else none

/-- Strip and parse of one rank string, as in `_get_common_game`
line 209. -/
def rankNat (r : String) : Option Nat :=
  parseDigits (stripChars r.data)

/-- One row of the `tables` array returned by the BGA game-stats API, as
read by `_get_common_game` (`src/bga_stats.py` lines 198-208):
`player_names` and `ranks` are kept as the comma-split lists. -/
@[ext] structure TableRow where
  table_id : String
  game_id : String
  game_name : String
  player_names : List String
  ranks : List String
deriving DecidableEq, Repr

/-- The ranking-classification loop of `_get_common_game` (lines
209-223), producing the winners, runner-ups, losers and lasts lists.
`largest` is the maximum parsed rank (`max` of an empty list raises in
Python and aborts the page; it is modelled as 0, a case no claim
touches).  Indexing `player_names[i]` past the end raises in Python; it
is modelled as the empty string, again a case no claim touches. -/
def rowLists (user_names : List String) (names ranks : List String) (largest : Nat) :
    List String × List String × List String × List String :=
  (List.range ranks.length).foldl (fun acc i =>
    let ranking := ranks.getD i ""
    let name := names.getD i ""
    if ranking = "1" ∧ name ∈ user_names then
      (acc.1 ++ [name], acc.2.1, acc.2.2.1, acc.2.2.2)
    else if ranking = toString largest ∧ name ∈ user_names then
      (acc.1, acc.2.1, acc.2.2.1, acc.2.2.2 ++ [name])
    else if ranking = "2" ∧ name ∈ user_names then
      (acc.1, acc.2.1 ++ [name], acc.2.2.1, acc.2.2.2)
    else if name ∈ user_names then
      (acc.1, acc.2.1, acc.2.2.1 ++ [name], acc.2.2.2)
    else acc) ([], [], [], [])

/-- The `game_data` dict built for one table by `_get_common_game`
(lines 226-234). -/
def rowRecord (user_names : List String) (t : TableRow) : GameRecord :=
  let largest := (t.ranks.filterMap rankNat).foldl Nat.max 0
  let lists := rowLists user_names t.player_names t.ranks largest
  { game_id := t.game_id
    game_name := t.game_name
    table_id := t.table_id
    winners := lists.1
    runner_ups := lists.2.1
    losers := lists.2.2.1
    lasts := lists.2.2.2 }

/-- The game ids excluded from tracking (`self._exclude_game_ids`,
`src/bga_stats.py` line 41). -/
def exclude_game_ids : List String := ["1015", "1804", "1937"]

/-- Processing of one API table row by `_get_common_game` (lines
198-236): the row is stored in the in-memory game history keyed by its
table id only when the table id is non-empty and not yet present and the
game id is non-empty and not excluded.  Python string truthiness is
modelled as being non-empty. -/
def addTable (user_names excluded : List String)
    (history : List (String × GameRecord)) (t : TableRow) :
    List (String × GameRecord) :=
  if t.table_id ≠ "" ∧ (lookupA history t.table_id).isNone ∧
      t.game_id ≠ "" ∧ t.game_id ∉ excluded then
    history ++ [(t.table_id, rowRecord user_names t)]
  else history

/-- The match records of a game history in insertion order, the sequence
`self._game_history.items()` that `_find_common_games` folds over. -/
def historyRecords (history : List (String × GameRecord)) : List GameRecord :=
  history.map Prod.snd

/-- Claim C1, amended: within one run the in-memory game history is
deduplicated by table id, so fetching the same table row a second time
leaves the game history — and hence the per-player counts aggregated
from it — exactly as after the first fetch. -/
theorem addTable_idempotent (user_names excluded : List String)
    (history : List (String × GameRecord)) (t : TableRow) (db : Db) :
    addTable user_names excluded (addTable user_names excluded history t) t =
      addTable user_names excluded history t ∧
    find_common_games
        (historyRecords (addTable user_names excluded (addTable user_names excluded history t) t)) db =
      find_common_games (historyRecords (addTable user_names excluded history t)) db := by
  have hidem : addTable user_names excluded (addTable user_names excluded history t) t =
      addTable user_names excluded history t := by
    by_cases hc : t.table_id ≠ "" ∧ (lookupA history t.table_id).isNone ∧
        t.game_id ≠ "" ∧ t.game_id ∉ excluded
    · have h1 : addTable user_names excluded history t =
          history ++ [(t.table_id, rowRecord user_names t)] := by
        simp only [addTable, if_pos hc]
      rw [h1]
      have h2 : lookupA (history ++ [(t.table_id, rowRecord user_names t)]) t.table_id =
          some (rowRecord user_names t) := by
        rw [lookupA_append]
        have : lookupA history t.table_id = none := by
          cases hl : lookupA history t.table_id with
          | none => rfl
          | some v => rw [hl] at hc; simp at hc
        rw [this]
        simp [lookupA]
      simp only [addTable, h2]
      simp
    · have h1 : addTable user_names excluded history t = history := by
        simp only [addTable, if_neg hc]
      rw [h1]
      simp only [addTable, if_neg hc]
  exact ⟨hidem, by rw [hidem]⟩

/-- Tracked user names used by the concrete counterexample runs. -/
def c1Users : List String := ["Gelev", "mashiro66"]

/-- A concrete API table row: table `t100` of game `9`, won by Gelev
with mashiro66 placed last. -/
def c1Table : TableRow :=
  ⟨"t100", "9", "TestGame", ["Gelev", "mashiro66"], ["1", "2"]⟩

/-- The database after a first run that scrapes table `t100` into a
fresh game history and aggregates it into an empty database. -/
def c1Run1 : Db :=
  find_common_games (historyRecords (addTable c1Users exclude_game_ids [] c1Table)) emptyDb

/-- The database after a second incremental run that scrapes the same
table `t100` again into a fresh game history and aggregates it into the
database left by the first run. -/
def c1Run2 : Db :=
  find_common_games (historyRecords (addTable c1Users exclude_game_ids [] c1Table)) c1Run1

/-- Counterexample to claim C1: replaying the same match record across
two incremental runs double-counts, because the persisted database keeps
no table ids and each run starts with an empty in-memory game history.
After the first run Gelev has 1 win out of 1 game of game 9; after the
second run aggregating the identical record the database shows 2 wins
out of 2. -/
theorem c1_counterexample :
    cGetDb c1Run1 "9" "Gelev" = ⟨1, 0, 0, 1⟩ ∧
    cGetDb c1Run2 "9" "Gelev" = ⟨2, 0, 0, 2⟩ ∧
    cGetDb c1Run2 "9" "Gelev" ≠ cGetDb c1Run1 "9" "Gelev" := by decide

/-- First concrete record for the order-independence witness: in game 9,
table tA, Gelev won and mashiro66 lost. -/
def c3RecA : GameRecord := ⟨"9", "TestGame", "tA", ["Gelev"], [], ["mashiro66"], []⟩

/-- Second concrete record for the order-independence witness: in game
9, table tB, mashiro66 won and Gelev came last. -/
def c3RecB : GameRecord := ⟨"9", "TestGame", "tB", ["mashiro66"], [], [], ["Gelev"]⟩

/-- Witness for claim C3 at the two concrete records: aggregating them
in either order yields the same counts for Gelev in game 9, and
aggregating their concatenation equals two successive runs. -/
theorem find_common_games_assoc_comm_witness :
    ([c3RecA, c3RecB].Perm [c3RecB, c3RecA] ∧ [c3RecA, c3RecB].Nodup) ∧
    cGetDb (find_common_games [c3RecA, c3RecB] emptyDb) "9" "Gelev" =
      cGetDb (find_common_games [c3RecB, c3RecA] emptyDb) "9" "Gelev" ∧
    find_common_games ([c3RecA] ++ [c3RecB]) emptyDb =
      find_common_games [c3RecB] (find_common_games [c3RecA] emptyDb) := by
  have hperm : [c3RecA, c3RecB].Perm [c3RecB, c3RecA] := List.Perm.swap c3RecB c3RecA []
  have hnd : [c3RecA, c3RecB].Nodup := by decide
  have h := find_common_games_assoc_comm [c3RecA, c3RecB] [c3RecB, c3RecA] hperm hnd emptyDb
  exact ⟨⟨hperm, hnd⟩, h.1 "9" "Gelev", h.2 [c3RecA] [c3RecB]⟩

/-- Preservation of a predicate along a left fold, with the fold step
only required to preserve it for elements of the folded list. -/
theorem foldl_pred {α β : Type} {P : β → Prop} {f : β → α → β} {l : List α}
    (hf : ∀ b a, a ∈ l → P b → P (f b a)) {b : β} (hb : P b) : P (l.foldl f b) := by
  induction l generalizing b with
  | nil => exact hb
  | cons a t ih =>
    exact ih (fun b1 a1 ha1 => hf b1 a1 (List.mem_cons_of_mem a ha1))
      (hf b a (List.mem_cons_self a t) hb)

/-- Membership of every entry of a dict assignment: entries of
`setA l k v` are entries of `l` or the assigned pair. -/
theorem mem_setA {α : Type} {l : List (String × α)} {k : String} {v : α} {p : String × α}
    (h : p ∈ setA l k v) : p ∈ l ∨ p = (k, v) := by
  induction l with
  | nil => simpa [setA] using h
  | cons q t ih =>
    obtain ⟨k1, v1⟩ := q
    by_cases hk : k1 = k
    · rw [setA, if_pos hk] at h
      rcases List.mem_cons.mp h with h1 | h1
      · exact Or.inr h1
      · exact Or.inl (List.mem_cons_of_mem _ h1)
    · rw [setA, if_neg hk] at h
      rcases List.mem_cons.mp h with h1 | h1
      · exact Or.inl (h1 ▸ List.mem_cons_self _ t)
      · rcases ih h1 with h2 | h2
        · exact Or.inl (List.mem_cons_of_mem _ h2)
        · exact Or.inr h2

/-- The first occurrence found by lookup is an entry of the list. -/
theorem lookupA_mem {α : Type} {l : List (String × α)} {k : String} {v : α}
    (h : lookupA l k = some v) : (k, v) ∈ l := by
  induction l with
  | nil => simp [lookupA] at h
  | cons q t ih =>
    obtain ⟨k1, v1⟩ := q
    by_cases hk : k1 = k
    · subst hk
      rw [lookupA, if_pos rfl] at h
      exact (Option.some_inj.mp h) ▸ List.mem_cons_self _ t
    · rw [lookupA, if_neg hk] at h
      exact List.mem_cons_of_mem _ (ih h)

/-- Predicate on per-player counters holding for every user entry of a
user map. -/
def UsersPred (P : Counts → Prop) (users : Users) : Prop :=
  ∀ p ∈ users, P p.2

/-- Predicate on per-player counters holding for every user entry of
every game entry of a games map. -/
def GamesPred (P : Counts → Prop) (games : Games) : Prop :=
  ∀ q ∈ games, UsersPred P q.2.users

theorem usersPred_setA {P : Counts → Prop} {l : Users} {k : String} {v : Counts}
    (hl : UsersPred P l) (hv : P v) : UsersPred P (setA l k v) := by
  intro p hp
  rcases mem_setA hp with h | h
  · exact hl p h
  · rw [h]
    exact hv

/-- Closure of a counter predicate under the four fresh entries and the
four increment shapes used by `_find_common_games`. -/
def CountsClosed (P : Counts → Prop) : Prop :=
  P ⟨1, 0, 0, 1⟩ ∧ P ⟨0, 1, 0, 1⟩ ∧ P ⟨0, 0, 0, 1⟩ ∧ P ⟨0, 0, 1, 1⟩ ∧
  (∀ c, P c → P ⟨c.win + 1, c.second, c.last, c.total + 1⟩) ∧
  (∀ c, P c → P ⟨c.win, c.second + 1, c.last, c.total + 1⟩) ∧
  (∀ c, P c → P ⟨c.win, c.second, c.last, c.total + 1⟩) ∧
  (∀ c, P c → P ⟨c.win, c.second, c.last + 1, c.total + 1⟩)

theorem usersPred_applyWinner {P : Counts → Prop} (hP : CountsClosed P)
    {us : Users} (h : UsersPred P us) (w : String) : UsersPred P (applyWinner us w) := by
  unfold applyWinner updWith
  cases hl : lookupA us w with
  | none => exact usersPred_setA h hP.1
  | some c => exact usersPred_setA h (hP.2.2.2.2.1 c (h _ (lookupA_mem hl)))

theorem usersPred_applyRunnerUp {P : Counts → Prop} (hP : CountsClosed P)
    {us : Users} (h : UsersPred P us) (w : String) : UsersPred P (applyRunnerUp us w) := by
  unfold applyRunnerUp updWith
  cases hl : lookupA us w with
  | none => exact usersPred_setA h hP.2.1
  | some c => exact usersPred_setA h (hP.2.2.2.2.2.1 c (h _ (lookupA_mem hl)))

theorem usersPred_applyLoser {P : Counts → Prop} (hP : CountsClosed P)
    {us : Users} (h : UsersPred P us) (w : String) : UsersPred P (applyLoser us w) := by
  unfold applyLoser updWith
  cases hl : lookupA us w with
  | none => exact usersPred_setA h hP.2.2.1
  | some c => exact usersPred_setA h (hP.2.2.2.2.2.2.1 c (h _ (lookupA_mem hl)))

theorem usersPred_applyLast {P : Counts → Prop} (hP : CountsClosed P)
    {us : Users} (h : UsersPred P us) (w : String) : UsersPred P (applyLast us w) := by
  unfold applyLast updWith
  cases hl : lookupA us w with
  | none => exact usersPred_setA h hP.2.2.2.1
  | some c => exact usersPred_setA h (hP.2.2.2.2.2.2.2 c (h _ (lookupA_mem hl)))

theorem usersPred_fourFolds {P : Counts → Prop} (hP : CountsClosed P)
    {us : Users} (h : UsersPred P us) (g : GameRecord) :
    UsersPred P
      (g.lasts.foldl applyLast
        (g.losers.foldl applyLoser
          (g.runner_ups.foldl applyRunnerUp
            (g.winners.foldl applyWinner us)))) := by
  have h1 := @foldl_pred String Users (UsersPred P) applyWinner g.winners
    (fun b a _ hb => usersPred_applyWinner hP hb a) us h
  have h2 := @foldl_pred String Users (UsersPred P) applyRunnerUp g.runner_ups
    (fun b a _ hb => usersPred_applyRunnerUp hP hb a) _ h1
  have h3 := @foldl_pred String Users (UsersPred P) applyLoser g.losers
    (fun b a _ hb => usersPred_applyLoser hP hb a) _ h2
  exact @foldl_pred String Users (UsersPred P) applyLast g.lasts
    (fun b a _ hb => usersPred_applyLast hP hb a) _ h3

theorem gamesPred_applyRecord {P : Counts → Prop} (hP : CountsClosed P)
    {games : Games} (h : GamesPred P games) (g : GameRecord) :
    GamesPred P (applyRecord games g) := by
  unfold applyRecord
  cases hl : lookupA games g.game_id with
  | none =>
    intro q hq
    rcases mem_setA hq with h1 | h1
    · exact h q h1
    · rw [h1]
      exact usersPred_fourFolds hP (fun p hp => absurd hp (List.not_mem_nil p)) g
  | some e =>
    intro q hq
    rcases mem_setA hq with h1 | h1
    · exact h q h1
    · rw [h1]
      exact usersPred_fourFolds hP (h _ (lookupA_mem hl)) g

theorem gamesPred_find_common_games {P : Counts → Prop} (hP : CountsClosed P)
    {db : Db} (h : GamesPred P db.games) (recs : List GameRecord) :
    GamesPred P (find_common_games recs db).games := by
  unfold find_common_games
  exact @foldl_pred GameRecord Games (GamesPred P) applyRecord recs
    (fun b a _ hb => gamesPred_applyRecord hP hb a) db.games h

/-- Accumulation of one user's counters into a per-category user map,
the body of the `for user, result in common_game['users'].items()` loop
of `_analyze_game` (`src/bga_stats.py` lines 427-437): a fresh copy of
the counters when the user is absent, componentwise addition
otherwise. -/
def addResult (users : Users) (u : String) (c : Counts) : Users :=
  match lookupA users u with
  | none => setA users u ⟨c.win, c.second, c.last, c.total⟩
  | some old =>
    setA users u ⟨old.win + c.win, old.second + c.second, old.last + c.last, old.total + c.total⟩

/-- The per-category statistics accumulation of `_analyze_game`
(`src/bga_stats.py` lines 416-437): starting from the five empty ELO
buckets, fold every game of the database, adding each of its user
entries into the bucket of the game's ELO category.  The ELO returned by
the network call `_get_game_elo` is abstracted as the function `eloOf`.
The best-player computation held in `self._game_winner` (lines 423-454)
and the `self._elo_category_dict` side list are not part of any claim
and are omitted. -/
def analyze_game_stats (eloOf : String → Option Int) (db : Db) : List (String × Users) :=
  db.games.foldl (fun report q =>
    q.2.users.foldl (fun rep p =>
      match lookupA rep (categorize_by_elo (eloOf q.1)) with
      | none => rep
      | some catUsers =>
        setA rep (categorize_by_elo (eloOf q.1)) (addResult catUsers p.1 p.2)) report)
    [(">800", []), ("700-800", []), ("600-700", []), ("500-600", []), ("<500", [])]

/-- Predicate on per-player counters holding for every user entry of
every category bucket of a statistics report. -/
def ReportPred (P : Counts → Prop) (report : List (String × Users)) : Prop :=
  ∀ q ∈ report, UsersPred P q.2

/-- Non-negativity of all four counters of a per-player entry. -/
def NonnegC (c : Counts) : Prop :=
  0 ≤ c.win ∧ 0 ≤ c.second ∧ 0 ≤ c.last ∧ 0 ≤ c.total

theorem countsClosed_nonneg : CountsClosed NonnegC := by
  refine ⟨?_, ?_, ?_, ?_, ?_, ?_, ?_, ?_⟩ <;>
    first
      | exact ⟨by norm_num, by norm_num, by norm_num, by norm_num⟩
      | (intro c hc; obtain ⟨h1, h2, h3, h4⟩ := hc; refine ⟨?_, ?_, ?_, ?_⟩ <;> dsimp only <;> omega)

theorem usersPred_addResult {P : Counts → Prop}
    (hcopy : ∀ c, P c → P ⟨c.win, c.second, c.last, c.total⟩)
    (hadd : ∀ old c, P old → P c →
      P ⟨old.win + c.win, old.second + c.second, old.last + c.last, old.total + c.total⟩)
    {users : Users} (h : UsersPred P users) {u : String} {c : Counts} (hc : P c) :
    UsersPred P (addResult users u c) := by
  unfold addResult
  cases hl : lookupA users u with
  | none => exact usersPred_setA h (hcopy c hc)
  | some old => exact usersPred_setA h (hadd old c (h _ (lookupA_mem hl)) hc)

theorem reportPred_analyze_game_stats {P : Counts → Prop}
    (hcopy : ∀ c, P c → P ⟨c.win, c.second, c.last, c.total⟩)
    (hadd : ∀ old c, P old → P c →
      P ⟨old.win + c.win, old.second + c.second, old.last + c.last, old.total + c.total⟩)
    (eloOf : String → Option Int) {db : Db} (h : GamesPred P db.games) :
    ReportPred P (analyze_game_stats eloOf db) := by
  unfold analyze_game_stats
  apply @foldl_pred (String × GameEntry) (List (String × Users)) (ReportPred P) _ db.games
  · intro rep q hq hrep
    apply @foldl_pred (String × Counts) (List (String × Users)) (ReportPred P) _ q.2.users
    · intro rep1 p hp hrep1
      cases hl : lookupA rep1 (categorize_by_elo (eloOf q.1)) with
      | none => simpa [hl] using hrep1
      | some catUsers =>
        simp only [hl]
        intro q1 hq1
        rcases mem_setA hq1 with h1 | h1
        · exact hrep1 q1 h1
        · rw [h1]
          exact usersPred_addResult hcopy hadd (hrep1 _ (lookupA_mem hl)) (h q hq p hp)
    · exact hrep
  · intro q hq
    fin_cases hq <;> intro p hp <;> simp at hp

/-- Claim C5: non-negativity invariant of the persisted counts.  Every
counter of every per-player entry of every database reachable from the
empty database by runs of the aggregation is non-negative, and both
`_find_common_games` and the per-category accumulation of
`_analyze_game` preserve the invariant. -/
theorem counts_nonneg_invariant :
    (∀ (db : Db) (recs : List GameRecord), GamesPred NonnegC db.games →
      GamesPred NonnegC (find_common_games recs db).games) ∧
    (∀ runs : List (List GameRecord),
      GamesPred NonnegC ((runs.foldl (fun d r => find_common_games r d) emptyDb)).games) ∧
    (∀ (eloOf : String → Option Int) (db : Db), GamesPred NonnegC db.games →
      ReportPred NonnegC (analyze_game_stats eloOf db)) := by
  refine ⟨fun db recs h => gamesPred_find_common_games countsClosed_nonneg h recs, ?_, ?_⟩
  · intro runs
    apply @foldl_pred (List GameRecord) Db (fun d => GamesPred NonnegC d.games)
      (fun d r => find_common_games r d) runs
    · intro b a _ hb
      exact gamesPred_find_common_games countsClosed_nonneg hb a
    · intro q hq
      simp [emptyDb] at hq
  · intro eloOf db h
    apply reportPred_analyze_game_stats ?_ ?_ eloOf h
    · intro c hc
      exact hc
    · intro old c h1 h2
      obtain ⟨a1, a2, a3, a4⟩ := h1
      obtain ⟨b1, b2, b3, b4⟩ := h2
      refine ⟨?_, ?_, ?_, ?_⟩ <;> dsimp only <;> omega

/-- Witness for claim C5 at a concrete reachable database: the two
concrete runs of records c3RecA and c3RecB, and the report built from
the resulting database with every game rated 650. -/
theorem counts_nonneg_invariant_witness :
    GamesPred NonnegC (find_common_games [c3RecB] (find_common_games [c3RecA] emptyDb)).games ∧
    GamesPred NonnegC (([[c3RecA], [c3RecB]].foldl (fun d r => find_common_games r d) emptyDb)).games ∧
    ReportPred NonnegC
      (analyze_game_stats (fun _ => some 650) (find_common_games [c3RecA] emptyDb)) := by
  have h0 : GamesPred NonnegC emptyDb.games := by
    intro q hq
    simp [emptyDb] at hq
  have h1 := counts_nonneg_invariant.1 (find_common_games [c3RecA] emptyDb) [c3RecB]
    (counts_nonneg_invariant.1 emptyDb [c3RecA] h0)
  have h2 := counts_nonneg_invariant.2.1 [[c3RecA], [c3RecB]]
  have h3 := counts_nonneg_invariant.2.2 (fun _ => some 650) (find_common_games [c3RecA] emptyDb)
    (counts_nonneg_invariant.1 emptyDb [c3RecA] h0)
  exact ⟨h1, h2, h3⟩

/-- Consistency of a per-player entry: the win, second and last counters
are non-negative and sum to at most the total counter. -/
def ConsistentC (c : Counts) : Prop :=
  0 ≤ c.win ∧ 0 ≤ c.second ∧ 0 ≤ c.last ∧ c.win + c.second + c.last ≤ c.total

/-- Disjointness of two string lists from a decidable bounded check. -/
theorem disjoint_of_all_not_mem {l1 l2 : List String}
    (h : ∀ a ∈ l1, a ∉ l2) : l1.Disjoint l2 :=
  fun a ha => h a ha

/-- Pairwise disjointness of the four placement lists of a match record,
the hypothesis of claim C8. -/
def DisjointLists (g : GameRecord) : Prop :=
  g.winners.Disjoint g.runner_ups ∧ g.winners.Disjoint g.losers ∧
  g.winners.Disjoint g.lasts ∧ g.runner_ups.Disjoint g.losers ∧
  g.runner_ups.Disjoint g.lasts ∧ g.losers.Disjoint g.lasts

theorem countsClosed_consistent : CountsClosed ConsistentC := by
  refine ⟨?_, ?_, ?_, ?_, ?_, ?_, ?_, ?_⟩ <;>
    first
      | exact ⟨by norm_num, by norm_num, by norm_num, by norm_num⟩
      | (intro c hc; obtain ⟨h1, h2, h3, h4⟩ := hc; refine ⟨?_, ?_, ?_, ?_⟩ <;> dsimp only <;> omega)

/-- Claim C8: per-entry count consistency.  For records with pairwise
disjoint winners, runner-ups, losers and lasts lists, `_find_common_games`
increments win, second or last only together with total, so every
per-player entry of the database aggregated from the empty database
satisfies win + second + last ≤ total, and in particular win ≤ total. -/
theorem find_common_games_consistent (recs : List GameRecord)
    (_hdisj : ∀ g ∈ recs, DisjointLists g) :
    GamesPred ConsistentC (find_common_games recs emptyDb).games ∧
    (∀ q ∈ (find_common_games recs emptyDb).games, ∀ p ∈ q.2.users, p.2.win ≤ p.2.total) := by
  have h0 : GamesPred ConsistentC emptyDb.games := by
    intro q hq
    simp [emptyDb] at hq
  have h := gamesPred_find_common_games countsClosed_consistent h0 recs
  refine ⟨h, fun q hq p hp => ?_⟩
  obtain ⟨h1, h2, h3, h4⟩ := h q hq p hp
  omega

/-- Witness for claim C8 at the two concrete disjoint-listed records:
their aggregate from the empty database satisfies the consistency
invariant, and Gelev's wins never exceed his totals. -/
theorem find_common_games_consistent_witness :
    (∀ g ∈ [c3RecA, c3RecB], DisjointLists g) ∧
    GamesPred ConsistentC (find_common_games [c3RecA, c3RecB] emptyDb).games ∧
    (∀ q ∈ (find_common_games [c3RecA, c3RecB] emptyDb).games,
      ∀ p ∈ q.2.users, p.2.win ≤ p.2.total) := by
  have hdisj : ∀ g ∈ [c3RecA, c3RecB], DisjointLists g := by
    have hA : DisjointLists c3RecA :=
      ⟨disjoint_of_all_not_mem (by decide), disjoint_of_all_not_mem (by decide),
       disjoint_of_all_not_mem (by decide), disjoint_of_all_not_mem (by decide),
       disjoint_of_all_not_mem (by decide), disjoint_of_all_not_mem (by decide)⟩
    have hB : DisjointLists c3RecB :=
      ⟨disjoint_of_all_not_mem (by decide), disjoint_of_all_not_mem (by decide),
       disjoint_of_all_not_mem (by decide), disjoint_of_all_not_mem (by decide),
       disjoint_of_all_not_mem (by decide), disjoint_of_all_not_mem (by decide)⟩
    intro g hg
    fin_cases hg
    · exact hA
    · exact hB
  have h := find_common_games_consistent [c3RecA, c3RecB] hdisj
  exact ⟨hdisj, h.1, h.2⟩

/-- The double loop of `_get_all_games_between_friends`
(`src/bga_stats.py` lines 267-274): for `i in range(n)` and
`j in range(i + 1, n)` one game-history fetch is issued for the pair
`(user_ids[i], user_ids[j])`; the function returns the list of issued
pair queries in order. -/
def get_all_games_between_friends (user_ids : List String) : List (String × String) :=
  (List.range user_ids.length).flatMap (fun i =>
    (List.range' (i + 1) (user_ids.length - (i + 1))).map
      (fun j => (user_ids.getD i "", user_ids.getD j "")))

/-- All ordered pairs of a list with the first component strictly before
the second. -/
def allPairs {α : Type} : List α → List (α × α)
  | [] => []
  | x :: xs => xs.map (fun y => (x, y)) ++ allPairs xs

theorem range_map_getD {α : Type} (l : List α) (d : α) :
    (List.range l.length).map (fun i => l.getD i d) = l := by
  induction l with
  | nil => simp
  | cons x xs ih =>
    rw [List.length_cons, List.range_succ_eq_map, List.map_cons, List.map_map]
    rw [List.getD_cons_zero]
    have h1 : (List.range xs.length).map ((fun i => (x :: xs).getD i d) ∘ Nat.succ) =
        (List.range xs.length).map (fun i => xs.getD i d) := by
      apply List.map_congr_left
      intro i _
      exact List.getD_cons_succ
    rw [h1, ih]

theorem get_all_games_eq_allPairs (ids : List String) :
    get_all_games_between_friends ids = allPairs ids := by
  induction ids with
  | nil => rfl
  | cons x xs ih =>
    unfold get_all_games_between_friends
    rw [List.length_cons, List.range_succ_eq_map, List.flatMap_cons, List.flatMap_map]
    have hhead : (List.range' (0 + 1) (xs.length + 1 - (0 + 1))).map
        (fun j => ((x :: xs).getD 0 "", (x :: xs).getD j "")) =
        xs.map (fun y => (x, y)) := by
      rw [List.range'_eq_map_range, List.map_map]
      calc (List.range (xs.length + 1 - (0 + 1))).map
            ((fun j => ((x :: xs).getD 0 "", (x :: xs).getD j "")) ∘ fun i => 0 + 1 + i)
          = (List.range xs.length).map
            ((fun j => ((x :: xs).getD 0 "", (x :: xs).getD j "")) ∘ fun i => 0 + 1 + i) := by
            have : xs.length + 1 - (0 + 1) = xs.length := by omega
            rw [this]
        _ = (List.range xs.length).map ((fun y => (x, y)) ∘ fun i => xs.getD i "") := by
            apply List.map_congr_left
            intro i _
            simp only [Function.comp_apply, List.getD_cons_zero]
            have h0 : 0 + 1 + i = i + 1 := by omega
            rw [h0, List.getD_cons_succ]
        _ = ((List.range xs.length).map (fun i => xs.getD i "")).map (fun y => (x, y)) := by
            rw [List.map_map]
        _ = xs.map (fun y => (x, y)) := by rw [range_map_getD]
    have htail : ((List.range xs.length).flatMap fun i =>
        (List.range' (Nat.succ i + 1) (xs.length + 1 - (Nat.succ i + 1))).map
          (fun j => ((x :: xs).getD (Nat.succ i) "", (x :: xs).getD j ""))) =
        get_all_games_between_friends xs := by
      unfold get_all_games_between_friends
      apply congrArg (fun f => (List.range xs.length).flatMap f)
      funext i
      rw [List.range'_eq_map_range, List.range'_eq_map_range, List.map_map, List.map_map]
      have hn : xs.length + 1 - (Nat.succ i + 1) = xs.length - (i + 1) := by omega
      rw [hn]
      apply List.map_congr_left
      intro k _
      simp only [Function.comp_apply]
      have h1 : Nat.succ i + 1 + k = (i + 1 + k) + 1 := by omega
      have h2 : (x :: xs).getD (Nat.succ i) "" = xs.getD i "" := List.getD_cons_succ
      rw [h1, h2, List.getD_cons_succ]
    rw [hhead, htail, ih]
    rfl

theorem allPairs_length {α : Type} (l : List α) :
    2 * (allPairs l).length = l.length * (l.length - 1) := by
  induction l with
  | nil => rfl
  | cons x xs ih =>
    show 2 * (xs.map (fun y => (x, y)) ++ allPairs xs).length =
      (xs.length + 1) * (xs.length + 1 - 1)
    rw [List.length_append, List.length_map]
    have key : ∀ m L : Nat, 2 * L = m * (m - 1) → 2 * (m + L) = (m + 1) * (m + 1 - 1) := by
      intro m L h
      cases m with
      | zero => omega
      | succ k =>
        have h1 : (k + 1) - 1 = k := rfl
        rw [h1] at h
        have h2 : (k + 1 + 1) - 1 = k + 1 := rfl
        rw [h2]
        nlinarith [h]
    exact key xs.length (allPairs xs).length ih

theorem mem_allPairs {α : Type} {l : List α} {p : α × α} (h : p ∈ allPairs l) :
    p.1 ∈ l ∧ p.2 ∈ l := by
  induction l with
  | nil => simp [allPairs] at h
  | cons x xs ih =>
    have h1 : p ∈ xs.map (fun y => (x, y)) ++ allPairs xs := h
    rcases List.mem_append.mp h1 with h2 | h2
    · obtain ⟨y, hy, hp⟩ := List.mem_map.mp h2
      rw [← hp]
      exact ⟨List.mem_cons_self _ _, List.mem_cons_of_mem _ hy⟩
    · obtain ⟨ha, hb⟩ := ih h2
      exact ⟨List.mem_cons_of_mem _ ha, List.mem_cons_of_mem _ hb⟩

theorem mem_allPairs_ne {α : Type} {l : List α} (hnd : l.Nodup) {p : α × α}
    (h : p ∈ allPairs l) : p.1 ≠ p.2 := by
  induction l with
  | nil => simp [allPairs] at h
  | cons x xs ih =>
    obtain ⟨hx, hnd1⟩ := List.nodup_cons.mp hnd
    have h1 : p ∈ xs.map (fun y => (x, y)) ++ allPairs xs := h
    rcases List.mem_append.mp h1 with h2 | h2
    · obtain ⟨y, hy, hp⟩ := List.mem_map.mp h2
      rw [← hp]
      intro he
      dsimp at he
      exact hx (he ▸ hy)
    · exact ih hnd1 h2

/-- Test of a pair query hitting the unordered pair of two given
players: the queried pair in either orientation. -/
def matchesPair (a b : String) (p : String × String) : Bool :=
  (p.1 == a && p.2 == b) || (p.1 == b && p.2 == a)

theorem allPairs_countP_one {l : List String} (hnd : l.Nodup) {a b : String}
    (ha : a ∈ l) (hb : b ∈ l) (hab : a ≠ b) :
    (allPairs l).countP (matchesPair a b) = 1 := by
  induction l with
  | nil => simp at ha
  | cons x xs ih =>
    obtain ⟨hx, hnd1⟩ := List.nodup_cons.mp hnd
    have happ : (allPairs (x :: xs)).countP (matchesPair a b) =
        (xs.map (fun y => (x, y))).countP (matchesPair a b) +
        (allPairs xs).countP (matchesPair a b) := List.countP_append _ _ _
    rw [happ, List.countP_map]
    by_cases hxa : x = a
    · subst hxa
      have hbxs : b ∈ xs := by
        rcases List.mem_cons.mp hb with h1 | h1
        · exact absurd h1.symm hab
        · exact h1
      have hxb : x ≠ b := hab
      have hfun : (matchesPair x b ∘ fun y => (x, y)) = fun y => y == b := by
        funext y
        simp only [Function.comp_apply, matchesPair]
        have hf : (x == b) = false := beq_eq_false_iff_ne.mpr hxb
        simp [hf]
      rw [hfun]
      have hmap : xs.countP (fun y => y == b) = 1 := by
        rw [← List.count_eq_countP]
        exact List.count_eq_one_of_mem hnd1 hbxs
      have hrest : (allPairs xs).countP (matchesPair x b) = 0 := by
        rw [List.countP_eq_zero]
        intro p hp
        obtain ⟨h1, h2⟩ := mem_allPairs hp
        have hp1 : p.1 ≠ x := fun he => hx (he ▸ h1)
        have hp2 : p.2 ≠ x := fun he => hx (he ▸ h2)
        simp [matchesPair, beq_iff_eq, hp1, hp2]
      rw [hmap, hrest]
    · by_cases hxb : x = b
      · subst hxb
        have haxs : a ∈ xs := by
          rcases List.mem_cons.mp ha with h1 | h1
          · exact absurd h1 hab
          · exact h1
        have hfun : (matchesPair a x ∘ fun y => (x, y)) = fun y => y == a := by
          funext y
          simp only [Function.comp_apply, matchesPair]
          have hf : (x == a) = false := beq_eq_false_iff_ne.mpr (fun he => hab he.symm)
          simp [hf]
        rw [hfun]
        have hmap : xs.countP (fun y => y == a) = 1 := by
          rw [← List.count_eq_countP]
          exact List.count_eq_one_of_mem hnd1 haxs
        have hrest : (allPairs xs).countP (matchesPair a x) = 0 := by
          rw [List.countP_eq_zero]
          intro p hp
          obtain ⟨h1, h2⟩ := mem_allPairs hp
          have hp1 : p.1 ≠ x := fun he => hx (he ▸ h1)
          have hp2 : p.2 ≠ x := fun he => hx (he ▸ h2)
          simp [matchesPair, beq_iff_eq, hp1, hp2]
        rw [hmap, hrest]
      · have haxs : a ∈ xs := by
          rcases List.mem_cons.mp ha with h1 | h1
          · exact absurd h1.symm hxa
          · exact h1
        have hbxs : b ∈ xs := by
          rcases List.mem_cons.mp hb with h1 | h1
          · exact absurd h1.symm hxb
          · exact h1
        have hfun : xs.countP (matchesPair a b ∘ fun y => (x, y)) = 0 := by
          rw [List.countP_eq_zero]
          intro y _
          have hf1 : (x == a) = false := beq_eq_false_iff_ne.mpr hxa
          have hf2 : (x == b) = false := beq_eq_false_iff_ne.mpr hxb
          simp [matchesPair, hf1, hf2]
        rw [hfun, ih hnd1 haxs hbxs]

/-- Claim C7: player pairing coverage.  For a duplicate-free list of n
tracked user ids, `_get_all_games_between_friends` issues exactly
n(n-1)/2 pair queries; every unordered pair of two distinct tracked
players is queried exactly once, and every issued query is a pair of two
distinct tracked players. -/
theorem get_all_games_pair_coverage (user_ids : List String) (hnd : user_ids.Nodup) :
    (get_all_games_between_friends user_ids).length =
      user_ids.length * (user_ids.length - 1) / 2 ∧
    (∀ a b : String, a ∈ user_ids → b ∈ user_ids → a ≠ b →
      (get_all_games_between_friends user_ids).countP (matchesPair a b) = 1) ∧
    (∀ p ∈ get_all_games_between_friends user_ids,
      p.1 ∈ user_ids ∧ p.2 ∈ user_ids ∧ p.1 ≠ p.2) := by
  rw [get_all_games_eq_allPairs]
  refine ⟨?_, ?_, ?_⟩
  · have h := allPairs_length user_ids
    omega
  · intro a b ha hb hab
    exact allPairs_countP_one hnd ha hb hab
  · intro p hp
    obtain ⟨h1, h2⟩ := mem_allPairs hp
    exact ⟨h1, h2, mem_allPairs_ne hnd hp⟩

/-- Witness for claim C7 on three concrete tracked user ids from
`first_time_setup`: three pair queries are issued, and the unordered
pair of the first and third id is queried exactly once. -/
theorem get_all_games_pair_coverage_witness :
    (["85361014", "97981932", "98250223"] : List String).Nodup ∧
    (get_all_games_between_friends ["85361014", "97981932", "98250223"]).length =
      3 * (3 - 1) / 2 ∧
    (get_all_games_between_friends ["85361014", "97981932", "98250223"]).countP
      (matchesPair "85361014" "98250223") = 1 := by
  have hnd : (["85361014", "97981932", "98250223"] : List String).Nodup := by decide
  have h := get_all_games_pair_coverage ["85361014", "97981932", "98250223"] hnd
  exact ⟨hnd, h.1, h.2.1 "85361014" "98250223" (by decide) (by decide) (by decide)⟩

/-- File operations on the database file performed by a run. -/
inductive FileOp where
  | read : FileOp
  | write : FileOp
deriving DecidableEq, Repr

/-- The `_load_database` step (`src/bga_stats.py` lines 457-473): when
the database file exists it is opened and parsed (one read), otherwise
the empty database is returned without touching the file.  A file that
exists but fails to parse also yields the empty database after its one
read; the on-disk state is abstracted as `none` (missing) or
`some db` (present and parsed). -/
def load_database (disk : Option Db) : Db × List FileOp :=
  match disk with
  | some d => (d, [FileOp.read])
  | none => (⟨[], none⟩, [])

/-- The `_save_database` step (lines 475-485): one write of the full
database. -/
def save_database (database : Db) : Db × List FileOp :=
  (database, [FileOp.write])

/-- The `scrape_and_analyze` orchestration (`src/bga_stats.py` lines
658-707) as a trace of database-file operations: login, early return on
failure; otherwise load the database, fold the scraped history into it,
build the per-category report (a pure computation plus network posts,
no file operations), stamp `last_update` and save.  The scraped history,
ELO lookups and the current time are inputs abstracting the network and
clock; the result is the final on-disk state together with the ordered
list of file operations performed. -/
def scrape_and_analyze (loginOk : Bool) (disk : Option Db)
    (history : List GameRecord) (eloOf : String → Option Int) (now : String) :
    Option Db × List FileOp :=
  if loginOk = false then
    (disk, [])
  else
    let loaded := load_database disk
    let database := find_common_games history loaded.1
    let _report := analyze_game_stats eloOf database
    let database2 := { database with last_update := some now }
    let saved := save_database database2
    (some saved.1, loaded.2 ++ saved.2)

/-- Claim C6: database file lifecycle and atomicity on error.  A failed
login returns early with no file operation, leaving the database file
unchanged; a successful run performs exactly one write, as its last file
operation, and — when the database file exists — exactly one read, at
the start: the full trace is read then write. -/
theorem scrape_and_analyze_lifecycle (loginOk : Bool) (disk : Option Db)
    (history : List GameRecord) (eloOf : String → Option Int) (now : String) :
    (loginOk = false →
      scrape_and_analyze loginOk disk history eloOf now = (disk, [])) ∧
    (loginOk = true →
      ((scrape_and_analyze loginOk disk history eloOf now).2.count FileOp.write = 1 ∧
       (scrape_and_analyze loginOk disk history eloOf now).2.getLast? = some FileOp.write ∧
       (∀ d : Db, disk = some d →
         (scrape_and_analyze loginOk disk history eloOf now).2 = [FileOp.read, FileOp.write]) ∧
       (disk = none →
         (scrape_and_analyze loginOk disk history eloOf now).2 = [FileOp.write]))) := by
  constructor
  · intro h
    simp [scrape_and_analyze, h]
  · intro h
    subst h
    cases disk with
    | none =>
      refine ⟨?_, ?_, ?_, ?_⟩ <;>
        simp [scrape_and_analyze, load_database, save_database]
    | some d =>
      refine ⟨?_, ?_, ?_, ?_⟩ <;>
        simp [scrape_and_analyze, load_database, save_database]

/-- Witness for claim C6 at concrete inputs: a failed login over a
present file leaves it untouched with an empty trace, and a successful
run over a present file traces exactly one read followed by one
write. -/
theorem scrape_and_analyze_lifecycle_witness :
    scrape_and_analyze false (some emptyDb) [c3RecA] (fun _ => none) "2025-01-01 00:00:00" =
      (some emptyDb, []) ∧
    (scrape_and_analyze true (some emptyDb) [c3RecA] (fun _ => none) "2025-01-01 00:00:00").2 =
      [FileOp.read, FileOp.write] := by
  have h1 := (scrape_and_analyze_lifecycle false (some emptyDb) [c3RecA]
    (fun _ => none) "2025-01-01 00:00:00").1 rfl
  have h2 := ((scrape_and_analyze_lifecycle true (some emptyDb) [c3RecA]
    (fun _ => none) "2025-01-01 00:00:00").2 rfl).2.2.1 emptyDb rfl
  exact ⟨h1, h2⟩

/-- Python strings of `src/fpl_price.py`, modelled at character level so
that splitting, stripping and length behave exactly like the code-point
operations of the source. -/
abbrev Str := List Char

/-- Character list of a Lean string literal. -/
def strOf (s : String) : Str := s.data

/-- One field of a Discord embed, the dict
`{'name': _, 'value': _, 'inline': _}` of `src/fpl_price.py`. -/
structure DField where
  name : Str
  value : Str
  inline : Bool
deriving DecidableEq, Repr

/-- A Discord embed as built by `format_message` and consumed by
`send_discord_message` in `src/fpl_price.py`. -/
structure DEmbed where
  title : Str
  description : Option Str
  fields : List DField
  color : Nat
  footer : Option Str
deriving DecidableEq, Repr

/-- One parsed player row of `fetch_price_data` (`src/fpl_price.py`
lines 140-150).  `prediction_value` is the numeric value
`get_prediction_value` extracts from the prediction string (lines
36-57); the claims about `format_message` only compare and order these
values, so the value is carried as an exact rational. -/
structure Player where
  name : Str
  position : Str
  price : Str
  team : Str
  progress_now : Str
  prediction : Str
  prediction_time : Str
  progress_per_hour : Str
  prediction_value : Rat
deriving DecidableEq, Repr

/-- The in-place descending sort
`players_data.sort(key=lambda x: x['prediction_value'], reverse=True)`
(`src/fpl_price.py` line 214); Python's stable sort is modelled by the
stable `mergeSort`. -/
def sortDesc (players : List Player) : List Player :=
  players.mergeSort (fun a b => decide (b.prediction_value ≤ a.prediction_value))

/-- The riser selection (line 217): positive predictions of the sorted
list, first ten. -/
def risersOf (players : List Player) : List Player :=
  ((sortDesc players).filter (fun p => decide (0 < p.prediction_value))).take 10

/-- The faller selection (lines 218-220): negative predictions, resorted
ascending (most negative first), first ten. -/
def fallersOf (players : List Player) : List Player :=
  (((sortDesc players).filter (fun p => decide (p.prediction_value < 0))).mergeSort
    (fun a b => decide (a.prediction_value ≤ b.prediction_value))).take 10

/-- One numbered entry of the riser or faller list (lines 228-232 and
251-255).  The progress-bar renderer is a parameter: `progress_bar`
itself computes through Python floats (see claim C10). -/
def entryLine (pbar : Str → Str) (i : Nat) (p : Player) : Str :=
  strOf (toString i) ++ strOf ". **" ++ p.name ++ strOf "** (" ++ p.position ++
    strOf ") " ++ p.price ++ strOf " - " ++ p.team ++ strOf "\n" ++
    pbar p.progress_now ++ strOf "\n" ++
    strOf "Pred: " ++ p.prediction ++ strOf ", Time: " ++ p.prediction_time ++
    strOf ", /hr: " ++ p.progress_per_hour

/-- Python `'\n\n'.join(entries)`. -/
def joinNl2 (l : List Str) : Str :=
  match l with
  | [] => []
  | s :: t => t.foldl (fun acc x => acc ++ strOf "\n\n" ++ x) s

/-- The error embed returned for an empty player list (lines 206-211). -/
def errorEmbed : DEmbed :=
  { title := strOf "📊 Daily LiveFPL Price Predictions"
    description := some (strOf "❌ No player data found")
    fields := []
    color := 0xff0000
    footer := none }

/-- The risers embed (lines 234-245). -/
def risersEmbed (pbar : Str → Str) (risers : List Player) : DEmbed :=
  { title := strOf "📊 Daily LiveFPL Price Predictions"
    description := none
    fields := [{ name := strOf "📈 TOP 10 PREDICTED RISERS"
                 value := joinNl2 (risers.enum.map (fun q => entryLine pbar (q.1 + 1) q.2))
                 inline := false }]
    color := 0x2ecc71
    footer := some (strOf "LiveFPL Price Movement Analysis") }

/-- The fallers embed (lines 257-268). -/
def fallersEmbed (pbar : Str → Str) (fallers : List Player) : DEmbed :=
  { title := strOf "📊 Daily LiveFPL Price Predictions"
    description := none
    fields := [{ name := strOf "📉 TOP 10 PREDICTED FALLERS"
                 value := joinNl2 (fallers.enum.map (fun q => entryLine pbar (q.1 + 1) q.2))
                 inline := false }]
    color := 0xe74c3c
    footer := some (strOf "LiveFPL Price Movement Analysis") }

/-- The `format_message` formatter (`src/fpl_price.py` lines 182-270):
the error embed for an empty list, otherwise a risers embed when there
are risers and a fallers embed when there are fallers. -/
def format_message (pbar : Str → Str) (players : List Player) : List DEmbed :=
  if players = [] then [errorEmbed]
  else
    (if risersOf players ≠ [] then [risersEmbed pbar (risersOf players)] else []) ++
    (if fallersOf players ≠ [] then [fallersEmbed pbar (fallersOf players)] else [])

theorem descTrans : ∀ a b c : Player,
    (fun a b : Player => decide (b.prediction_value ≤ a.prediction_value)) a b = true →
    (fun a b : Player => decide (b.prediction_value ≤ a.prediction_value)) b c = true →
    (fun a b : Player => decide (b.prediction_value ≤ a.prediction_value)) a c = true := by
  intro a b c h1 h2
  simp only [decide_eq_true_iff] at h1 h2 ⊢
  exact le_trans h2 h1

theorem descTotal : ∀ a b : Player,
    ((fun a b : Player => decide (b.prediction_value ≤ a.prediction_value)) a b ||
     (fun a b : Player => decide (b.prediction_value ≤ a.prediction_value)) b a) = true := by
  intro a b
  simp only [Bool.or_eq_true, decide_eq_true_iff]
  exact (le_total b.prediction_value a.prediction_value)

theorem ascTrans : ∀ a b c : Player,
    (fun a b : Player => decide (a.prediction_value ≤ b.prediction_value)) a b = true →
    (fun a b : Player => decide (a.prediction_value ≤ b.prediction_value)) b c = true →
    (fun a b : Player => decide (a.prediction_value ≤ b.prediction_value)) a c = true := by
  intro a b c h1 h2
  simp only [decide_eq_true_iff] at h1 h2 ⊢
  exact le_trans h1 h2

theorem ascTotal : ∀ a b : Player,
    ((fun a b : Player => decide (a.prediction_value ≤ b.prediction_value)) a b ||
     (fun a b : Player => decide (a.prediction_value ≤ b.prediction_value)) b a) = true := by
  intro a b
  simp only [Bool.or_eq_true, decide_eq_true_iff]
  exact (le_total a.prediction_value b.prediction_value)

/-- Claim C9: riser/faller partition of `format_message`.  The empty
list yields exactly the error embed; a non-empty list yields at most two
embeds, the risers embed built from `risersOf` and the fallers embed
built from `fallersOf`; the riser list holds only strictly positive
predictions, sorted descending, at most ten of them; the faller list
holds only strictly negative predictions, sorted most-negative-first, at
most ten; a player with prediction value zero is in neither list. -/
theorem format_message_spec (pbar : Str → Str) (players : List Player) :
    (players = [] → format_message pbar players = [errorEmbed]) ∧
    (players ≠ [] → format_message pbar players =
      (if risersOf players ≠ [] then [risersEmbed pbar (risersOf players)] else []) ++
      (if fallersOf players ≠ [] then [fallersEmbed pbar (fallersOf players)] else [])) ∧
    (format_message pbar players).length ≤ 2 ∧
    (risersOf players).length ≤ 10 ∧
    (∀ p ∈ risersOf players, 0 < p.prediction_value) ∧
    (risersOf players).Sorted (fun a b => b.prediction_value ≤ a.prediction_value) ∧
    (fallersOf players).length ≤ 10 ∧
    (∀ p ∈ fallersOf players, p.prediction_value < 0) ∧
    (fallersOf players).Sorted (fun a b => a.prediction_value ≤ b.prediction_value) ∧
    (∀ p : Player, p.prediction_value = 0 →
      p ∉ risersOf players ∧ p ∉ fallersOf players) := by
  have hrmem : ∀ p ∈ risersOf players, 0 < p.prediction_value := by
    intro p hp
    have h1 : p ∈ (sortDesc players).filter (fun p => decide (0 < p.prediction_value)) :=
      List.take_subset _ _ hp
    have h2 := (List.mem_filter.mp h1).2
    exact of_decide_eq_true h2
  have hfmem : ∀ p ∈ fallersOf players, p.prediction_value < 0 := by
    intro p hp
    have h1 := List.take_subset _ _ hp
    have h2 := (List.mergeSort_perm
      ((sortDesc players).filter (fun p => decide (p.prediction_value < 0)))
      (fun a b => decide (a.prediction_value ≤ b.prediction_value))).mem_iff.mp h1
    exact of_decide_eq_true (List.mem_filter.mp h2).2
  refine ⟨?_, ?_, ?_, ?_, hrmem, ?_, ?_, hfmem, ?_, ?_⟩
  · intro h
    simp [format_message, h]
  · intro h
    simp [format_message, h]
  · by_cases h : players = []
    · simp [format_message, h]
    · rw [format_message, if_neg h, List.length_append]
      by_cases h1 : risersOf players ≠ [] <;> by_cases h2 : fallersOf players ≠ [] <;>
        simp [h1, h2]
  · exact List.length_take_le _ _
  · have hs := @List.sorted_mergeSort Player
      (fun a b => decide (b.prediction_value ≤ a.prediction_value)) descTrans descTotal players
    have hsub : (risersOf players).Sublist (sortDesc players) :=
      (List.take_sublist _ _).trans (List.filter_sublist _)
    have hp1 := List.Pairwise.sublist hsub hs
    exact hp1.imp (fun h => of_decide_eq_true h)
  · exact List.length_take_le _ _
  · have hs := @List.sorted_mergeSort Player
      (fun a b => decide (a.prediction_value ≤ b.prediction_value)) ascTrans ascTotal
      ((sortDesc players).filter (fun p => decide (p.prediction_value < 0)))
    have hsub : (fallersOf players).Sublist
        (((sortDesc players).filter (fun p => decide (p.prediction_value < 0))).mergeSort
          (fun a b => decide (a.prediction_value ≤ b.prediction_value))) :=
      List.take_sublist _ _
    have hp1 := List.Pairwise.sublist hsub hs
    exact hp1.imp (fun h => of_decide_eq_true h)
  · intro p hp
    constructor
    · intro hmem
      have := hrmem p hmem
      rw [hp] at this
      exact lt_irrefl 0 this
    · intro hmem
      have := hfmem p hmem
      rw [hp] at this
      exact lt_irrefl 0 this

/-- A concrete predicted riser (prediction value 5). -/
def c9Riser : Player :=
  { name := strOf "Salah", position := strOf "MID", price := strOf "£12.5"
    team := strOf "Liverpool", progress_now := strOf "75%", prediction := strOf "5%"
    prediction_time := strOf "Tonight", progress_per_hour := strOf "1%"
    prediction_value := 5 }

/-- A concrete player with prediction value 0. -/
def c9Zero : Player :=
  { name := strOf "Haaland", position := strOf "FW", price := strOf "£14.0"
    team := strOf "Man City", progress_now := strOf "0%", prediction := strOf "0%"
    prediction_time := strOf "", progress_per_hour := strOf "0%"
    prediction_value := 0 }

/-- A concrete predicted faller (prediction value -3). -/
def c9Faller : Player :=
  { name := strOf "Sterling", position := strOf "MID", price := strOf "£6.5"
    team := strOf "Chelsea", progress_now := strOf "-40%", prediction := strOf "-3%"
    prediction_time := strOf "Tomorrow", progress_per_hour := strOf "-1%"
    prediction_value := -3 }

/-- Witness for claim C9 at a concrete three-player list containing one
riser, one zero-prediction player and one faller. -/
theorem format_message_spec_witness :
    ([c9Riser, c9Zero, c9Faller] ≠ ([] : List Player)) ∧
    (format_message id [c9Riser, c9Zero, c9Faller]).length ≤ 2 ∧
    (∀ p ∈ risersOf [c9Riser, c9Zero, c9Faller], 0 < p.prediction_value) ∧
    (∀ p ∈ fallersOf [c9Riser, c9Zero, c9Faller], p.prediction_value < 0) ∧
    c9Zero ∉ risersOf [c9Riser, c9Zero, c9Faller] ∧
    c9Zero ∉ fallersOf [c9Riser, c9Zero, c9Faller] := by
  have h := format_message_spec id [c9Riser, c9Zero, c9Faller]
  have hzero := h.2.2.2.2.2.2.2.2.2 c9Zero rfl
  exact ⟨by simp, h.2.2.1, h.2.2.2.2.1, h.2.2.2.2.2.2.2.1, hzero.1, hzero.2⟩

/-- Python `value.split('\n\n')`: split at each non-overlapping leftmost
occurrence of a double newline. -/
def splitNl2 : Str → List Str
  | [] => [[]]
  | '\n' :: '\n' :: rest => [] :: splitNl2 rest
  | c :: rest =>
    match splitNl2 rest with
    | [] => [[c]]
    | s :: ss => (c :: s) :: ss

/-- Python `block.split('\n')`. -/
def splitNl1 : Str → List Str
  | [] => [[]]
  | '\n' :: rest => [] :: splitNl1 rest
  | c :: rest =>
    match splitNl1 rest with
    | [] => [[c]]
    | s :: ss => (c :: s) :: ss

/-- Python `'\n'.join(lines)`. -/
def joinNl1 (l : List Str) : Str :=
  match l with
  | [] => []
  | s :: t => t.foldl (fun acc x => acc ++ ['\n'] ++ x) s

/-- The accumulation loop of `send_discord_message`
(`src/fpl_price.py` lines 296-308): pack the double-newline segments of
an oversized value into parts, starting a new part when appending the
next segment (plus its two-newline separator) would push the current
part past 1024 characters, stripping each emitted part. -/
def buildLoop : List Str → Str → List Str → List Str
  | [], current, parts =>
    if current ≠ [] then parts ++ [stripChars current] else parts
  | line :: rest, current, parts =>
    if current.length + line.length + 2 > 1024 then
      buildLoop rest (line ++ strOf "\n\n")
        (if current ≠ [] then parts ++ [stripChars current] else parts)
    else
      buildLoop rest (current ++ line ++ strOf "\n\n") parts

/-- The `'​⁠'` name given to continuation fields
(line 316). -/
def zwspName : Str := ['​', '⁠']

/-- The `' \n'` prefix of continuation field values (line 317). -/
def contPrefix : Str := [' ', '\n']

/-- Replacement of one oversized field by its split parts
(`src/fpl_price.py` lines 294-323): the first part keeps the field
name, continuation parts get the zero-width-space name and the
no-break-space prefix. -/
def splitField (f : DField) : List DField :=
  (buildLoop (splitNl2 f.value) [] []).enum.map (fun q =>
    if q.1 = 0 then { name := f.name, value := q.2, inline := f.inline }
    else { name := zwspName, value := contPrefix ++ q.2, inline := f.inline })

/-- Python `fields.pop(j)` followed by `fields.insert(j + i, part)` for
each part in order (lines 311-323). -/
def insertParts (fields : List DField) (j : Nat) (parts : List DField) : List DField :=
  fields.take j ++ parts ++ fields.drop (j + 1)

/-- The `for field in embed_data['fields']` loop of
`send_discord_message` (lines 292-323), which mutates the list it
iterates: CPython's list iterator holds a plain index, incremented once
per iteration, and the loop body replaces the first field equal to the
current one (`.index(field)`) by its split parts.  The index semantics
is modelled directly; the explicit fuel dominates the iteration count
whenever every oversized field splits into parts within the limit —
which the theorems below establish for their inputs — and on exhaustion
the list is returned as is. -/
def processFields : Nat → Nat → List DField → List DField
  | 0, _, fields => fields
  | fuel + 1, idx, fields =>
    match fields[idx]? with
    | none => fields
    | some f =>
      if 1024 < f.value.length then
        processFields fuel (idx + 1)
          (insertParts fields (fields.findIdx (fun g => g == f)) (splitField f))
      else
        processFields fuel (idx + 1) fields

/-- Fuel bound for one field: one iteration for a within-limit field,
and for an oversized field one iteration for each of its at most
`segments + 1` parts. -/
def fieldFuel (f : DField) : Nat :=
  if 1024 < f.value.length then (splitNl2 f.value).length + 2 else 1

/-- The complete field-splitting pass of `send_discord_message` over an
embed's field list. -/
def processFieldsTop (fields : List DField) : List DField :=
  processFields ((fields.map fieldFuel).sum + 1) 0 fields

/-- The embed actually posted by `send_discord_message`
(`src/fpl_price.py` lines 272-334): the input embed with its oversized
fields split. -/
def send_discord_message (e : DEmbed) : DEmbed :=
  { e with fields := processFieldsTop e.fields }

/-- Removal of the `'**'` markers, Python `title.replace('**', '')`
(`src/bga_stats.py` line 562). -/
def removeStars : Str → Str
  | [] => []
  | '*' :: '*' :: rest => removeStars rest
  | c :: rest => c :: removeStars rest

/-- The embed built and posted by `_send_discord_embed`
(`src/bga_stats.py` lines 541-592): one field per message block, named
by the block's first line with the `'**'` markers removed, valued by the
remaining lines joined — with no truncation or splitting of any
kind. -/
def send_discord_embed (blocks : List Str) : DEmbed :=
  { title := strOf "🎲 BGA Game Statistics"
    description := some (strOf "Weekly analysis for tracked players")
    fields := blocks.map (fun block =>
      { name := removeStars ((splitNl1 block).headD [])
        value := joinNl1 ((splitNl1 block).tail)
        inline := false })
    color := 0x3498db
    footer := some (strOf "Counted stats for games with two or more players in this Discord.") }

/-- A concrete oversized field whose value is a single 1025-character
segment with no double newline. -/
def c4Field : DField :=
  { name := strOf "📈 TOP 10 PREDICTED RISERS"
    value := List.replicate 1025 'a'
    inline := false }

/-- A concrete statistics block whose single stats line has 1100
characters. -/
def c4Block : Str :=
  strOf "**ELO: >800**" ++ ['\n'] ++ List.replicate 1100 'x'

set_option maxRecDepth 100000 in
/-- Counterexample to claim C4: field values are not always brought
within the 1024-character limit.  `send_discord_message` splits the
1025-character single-segment field into one part that is still 1025
characters long, and `_send_discord_embed` performs no splitting at all,
posting a 1100-character field value unchanged. -/
theorem c4_counterexample :
    ((send_discord_message
        { title := strOf "📊 Daily LiveFPL Price Predictions"
          description := none
          fields := [c4Field]
          color := 0x2ecc71
          footer := none }).fields.map (fun f => f.value.length) = [1025]) ∧
    ((send_discord_embed [c4Block]).fields.map (fun f => f.value.length) = [1100]) := by
  decide

theorem dropWhile_isSuffix {α : Type} (p : α → Bool) (l : List α) :
    (l.dropWhile p).IsSuffix l := by
  induction l with
  | nil => simp
  | cons a t ih =>
    by_cases h : p a
    · rw [List.dropWhile_cons, if_pos h]
      exact ih.trans (List.suffix_cons a t)
    · rw [List.dropWhile_cons, if_neg h]

theorem stripChars_append_nl2_le (s : Str) :
    (stripChars (s ++ strOf "\n\n")).length ≤ s.length := by
  unfold stripChars
  obtain ⟨pre, hpre⟩ := dropWhile_isSuffix isPySpace (s ++ strOf "\n\n")
  set u := (s ++ strOf "\n\n").dropWhile isPySpace with hu
  have hrev : u.reverse ++ pre.reverse =
      '\n' :: '\n' :: s.reverse := by
    rw [← List.reverse_append, hpre]
    simp [strOf]
  have hnl : isPySpace '\n' = true := by decide
  rw [List.length_reverse]
  rcases hur : u.reverse with _ | ⟨x, t1⟩
  · simp
  · rcases ht1 : t1 with _ | ⟨y, w⟩
    · rw [hur, ht1] at hrev
      have hx : x = '\n' := by
        have := List.head_eq_of_cons_eq hrev
        exact this
      subst hx
      simp [List.dropWhile_cons, hnl]
    · rw [hur, ht1] at hrev
      have hx : x = '\n' := List.head_eq_of_cons_eq hrev
      have hrest := List.tail_eq_of_cons_eq hrev
      have hy : y = '\n' := List.head_eq_of_cons_eq hrest
      have hw : w ++ pre.reverse = s.reverse := List.tail_eq_of_cons_eq hrest
      have hwlen : w.length ≤ s.length := by
        have := congrArg List.length hw
        rw [List.length_append, List.length_reverse, List.length_reverse] at this
        omega
      subst hx
      subst hy
      rw [List.dropWhile_cons, if_pos hnl, List.dropWhile_cons, if_pos hnl]
      exact le_trans (List.dropWhile_sublist isPySpace).length_le hwlen

/-- Every part emitted by the packing loop stays within 1022 characters
when every incoming segment is at most 1022 characters long. -/
theorem buildLoop_bound (lines : List Str) (current : Str) (parts : List Str)
    (hl : ∀ l ∈ lines, l.length ≤ 1022)
    (hcur : current = [] ∨ (current.length ≤ 1024 ∧ ∃ pre, current = pre ++ strOf "\n\n"))
    (hparts : ∀ p ∈ parts, p.length ≤ 1022) :
    ∀ p ∈ buildLoop lines current parts, p.length ≤ 1022 := by
  induction lines generalizing current parts with
  | nil =>
    intro p hp
    rw [buildLoop] at hp
    by_cases hc : current = []
    · rw [if_neg (by simp [hc])] at hp
      exact hparts p hp
    · rw [if_pos hc] at hp
      rcases List.mem_append.mp hp with h1 | h1
      · exact hparts p h1
      · rcases hcur with h2 | ⟨hlen, pre, hpre⟩
        · exact absurd h2 hc
        · have hplen : p = stripChars current := List.mem_singleton.mp h1
          rw [hplen, hpre]
          have h3 := stripChars_append_nl2_le pre
          have h4 : pre.length + 2 = current.length := by
            have := congrArg List.length hpre
            simp [strOf] at this
            omega
          omega
  | cons line rest ih =>
    intro p hp
    rw [buildLoop] at hp
    have hline : line.length ≤ 1022 := hl line (List.mem_cons_self _ _)
    have hlrest : ∀ l ∈ rest, l.length ≤ 1022 :=
      fun l h => hl l (List.mem_cons_of_mem _ h)
    by_cases hbig : current.length + line.length + 2 > 1024
    · rw [if_pos hbig] at hp
      have hparts1 : ∀ q ∈ (if current ≠ [] then parts ++ [stripChars current] else parts),
          q.length ≤ 1022 := by
        intro q hq
        by_cases hc : current = []
        · rw [if_neg (by simp [hc])] at hq
          exact hparts q hq
        · rw [if_pos hc] at hq
          rcases List.mem_append.mp hq with h1 | h1
          · exact hparts q h1
          · rcases hcur with h2 | ⟨hlen, pre, hpre⟩
            · exact absurd h2 hc
            · have hqe : q = stripChars current := List.mem_singleton.mp h1
              rw [hqe, hpre]
              have h3 := stripChars_append_nl2_le pre
              have h4 : pre.length + 2 = current.length := by
                have := congrArg List.length hpre
                simp [strOf] at this
                omega
              omega
      refine ih (line ++ strOf "\n\n") _ hlrest ?_ hparts1 p hp
      right
      constructor
      · simp [strOf]
        omega
      · exact ⟨line, rfl⟩
    · rw [if_neg hbig] at hp
      refine ih (current ++ line ++ strOf "\n\n") parts hlrest ?_ hparts p hp
      right
      constructor
      · simp [strOf]
        omega
      · exact ⟨current ++ line, by simp⟩

theorem buildLoop_length_le (lines : List Str) (current : Str) (parts : List Str) :
    (buildLoop lines current parts).length ≤ parts.length + lines.length + 1 := by
  induction lines generalizing current parts with
  | nil =>
    rw [buildLoop]
    by_cases hc : current ≠ [] <;> simp [hc]
  | cons line rest ih =>
    rw [buildLoop]
    by_cases hbig : current.length + line.length + 2 > 1024
    · rw [if_pos hbig]
      have h1 := ih (line ++ strOf "\n\n")
        (if current ≠ [] then parts ++ [stripChars current] else parts)
      have h2 : (if current ≠ [] then parts ++ [stripChars current] else parts).length ≤
          parts.length + 1 := by
        by_cases hc : current ≠ [] <;> simp [hc]
      simp only [List.length_cons]
      omega
    · rw [if_neg hbig]
      have h1 := ih (current ++ line ++ strOf "\n\n") parts
      simp only [List.length_cons]
      omega

theorem buildLoop_ne_nil (lines : List Str) (current : Str) (parts : List Str)
    (h : current ≠ [] ∨ parts ≠ []) : buildLoop lines current parts ≠ [] := by
  induction lines generalizing current parts with
  | nil =>
    rw [buildLoop]
    rcases h with h1 | h1
    · rw [if_pos h1]
      simp
    · by_cases hc : current ≠ []
      · rw [if_pos hc]
        simp
      · rw [if_neg hc]
        exact h1
  | cons line rest ih =>
    rw [buildLoop]
    by_cases hbig : current.length + line.length + 2 > 1024
    · rw [if_pos hbig]
      apply ih
      left
      simp [strOf]
    · rw [if_neg hbig]
      apply ih
      left
      simp [strOf]

theorem splitNl2_ne_nil (s : Str) : splitNl2 s ≠ [] := by
  induction s using splitNl2.induct with
  | case1 => simp [splitNl2]
  | case2 rest ih => simp [splitNl2]
  | case3 c rest h hres ih => exact absurd hres ih
  | case4 c rest h s1 ss hres ih =>
    simp only [splitNl2]
    split <;> simp

theorem splitField_ne_nil (f : DField) : splitField f ≠ [] := by
  unfold splitField
  have h1 : buildLoop (splitNl2 f.value) [] [] ≠ [] := by
    cases he : splitNl2 f.value with
    | nil => exact absurd he (splitNl2_ne_nil f.value)
    | cons l0 ls =>
      rw [buildLoop]
      by_cases hbig : List.length ([] : Str) + l0.length + 2 > 1024
      · rw [if_pos hbig]
        apply buildLoop_ne_nil
        left
        simp [strOf]
      · rw [if_neg hbig]
        apply buildLoop_ne_nil
        left
        simp [strOf]
  intro hcon
  have := congrArg List.length hcon
  simp at this
  exact h1 this

theorem splitField_bound (f : DField) (h : ∀ s ∈ splitNl2 f.value, s.length ≤ 1022) :
    ∀ g ∈ splitField f, g.value.length ≤ 1024 := by
  intro g hg
  have hparts : ∀ p ∈ buildLoop (splitNl2 f.value) [] [], p.length ≤ 1022 :=
    buildLoop_bound (splitNl2 f.value) [] [] h (Or.inl rfl) (by simp)
  obtain ⟨q, hq, hge⟩ := List.mem_map.mp hg
  have hq2 : q.2 ∈ buildLoop (splitNl2 f.value) [] [] := List.snd_mem_of_mem_enum hq
  have hqlen := hparts q.2 hq2
  by_cases h0 : q.1 = 0
  · rw [← hge, if_pos h0]
    dsimp only
    omega
  · rw [← hge, if_neg h0]
    dsimp only
    simp only [List.length_append]
    have : contPrefix.length = 2 := rfl
    omega

theorem splitField_length_le (f : DField) :
    (splitField f).length ≤ (splitNl2 f.value).length + 1 := by
  unfold splitField
  rw [List.length_map, List.enum_length]
  have := buildLoop_length_le (splitNl2 f.value) [] []
  simpa using this

theorem findIdx_append_cons (A B : List DField) (f : DField)
    (hA : ∀ g ∈ A, g ≠ f) : (A ++ f :: B).findIdx (fun g => g == f) = A.length := by
  induction A with
  | nil => simp [List.findIdx_cons]
  | cons a A ih =>
    rw [List.cons_append, List.findIdx_cons]
    have ha : (a == f) = false := beq_eq_false_iff_ne.mpr (hA a (List.mem_cons_self _ _))
    rw [ha, cond_false, ih (fun g hg => hA g (List.mem_cons_of_mem _ hg))]
    simp

theorem sum_fieldFuel_ones (l : List DField) (h : ∀ g ∈ l, ¬ 1024 < g.value.length) :
    (l.map fieldFuel).sum = l.length := by
  induction l with
  | nil => rfl
  | cons a t ih =>
    rw [List.map_cons, List.sum_cons, ih (fun g hg => h g (List.mem_cons_of_mem _ hg)),
      List.length_cons]
    have ha : fieldFuel a = 1 := by rw [fieldFuel, if_neg (h a (List.mem_cons_self _ _))]
    omega

/-- With enough fuel, the field-splitting loop brings every field within
the 1024-character limit, provided every unprocessed field is either
already within the limit or has all its double-newline segments within
1022 characters. -/
theorem processFields_good (fuel : Nat) : ∀ (idx : Nat) (fields : List DField),
    (∀ g ∈ fields.take idx, g.value.length ≤ 1024) →
    (∀ g ∈ fields.drop idx,
      g.value.length ≤ 1024 ∨ (∀ s ∈ splitNl2 g.value, s.length ≤ 1022)) →
    ((fields.drop idx).map fieldFuel).sum + 1 ≤ fuel →
    ∀ g ∈ processFields fuel idx fields, g.value.length ≤ 1024 := by
  induction fuel with
  | zero =>
    intro idx fields _ _ hfuel
    omega
  | succ fuel ih =>
    intro idx fields hpre hsuf hfuel
    rw [processFields]
    cases hget : fields[idx]? with
    | none =>
      dsimp only
      intro g hg
      have hlen : fields.length ≤ idx := List.getElem?_eq_none_iff.mp hget
      have heq : fields.take idx = fields := List.take_of_length_le hlen
      refine hpre g ?_
      rw [heq]
      exact hg
    | some f =>
      dsimp only
      obtain ⟨hidx, hf⟩ := List.getElem?_eq_some_iff.mp hget
      have hdropcons : fields.drop idx = f :: fields.drop (idx + 1) := by
        rw [List.drop_eq_getElem_cons hidx, hf]
      have hold : ((fields.drop idx).map fieldFuel).sum =
          fieldFuel f + ((fields.drop (idx + 1)).map fieldFuel).sum := by
        rw [hdropcons, List.map_cons, List.sum_cons]
      by_cases hbig : 1024 < f.value.length
      · rw [if_pos hbig]
        have hfsuf : f.value.length ≤ 1024 ∨ (∀ s ∈ splitNl2 f.value, s.length ≤ 1022) := by
          apply hsuf
          rw [hdropcons]
          exact List.mem_cons_self _ _
        have hsegs : ∀ s ∈ splitNl2 f.value, s.length ≤ 1022 := by
          rcases hfsuf with h1 | h1
          · omega
          · exact h1
        have hpartsGood : ∀ g ∈ splitField f, g.value.length ≤ 1024 :=
          splitField_bound f hsegs
        have hfieldsdecomp : fields = fields.take idx ++ f :: fields.drop (idx + 1) := by
          conv_lhs => rw [← List.take_append_drop idx fields]
          rw [hdropcons]
        have htklen : (fields.take idx).length = idx := by
          rw [List.length_take]
          exact Nat.min_eq_left (Nat.le_of_lt hidx)
        have hAne : ∀ g ∈ fields.take idx, g ≠ f := by
          intro g hg he
          have := hpre g hg
          rw [he] at this
          omega
        have hjidx : fields.findIdx (fun g => g == f) = idx := by
          conv_lhs => rw [hfieldsdecomp]
          rw [findIdx_append_cons _ _ _ hAne, htklen]
        rw [hjidx]
        set P := splitField f with hPdef
        set A := fields.take idx with hAdef
        set C := fields.drop (idx + 1) with hCdef
        have hpne : P ≠ [] := splitField_ne_nil f
        have hppos : 1 ≤ P.length := by
          have := List.length_pos.mpr hpne
          omega
        have hnew : insertParts fields idx P = A ++ (P ++ C) := by
          rw [insertParts, List.append_assoc]
        apply ih (idx + 1) (insertParts fields idx P) ?_ ?_ ?_
        · intro g hg
          rw [hnew, ← htklen, List.take_append] at hg
          rcases List.mem_append.mp hg with h1 | h1
          · exact hpre g h1
          · have h3 : (P ++ C).take 1 = P.take 1 :=
              List.take_append_of_le_length hppos
            rw [h3] at h1
            exact hpartsGood g (List.take_subset _ _ h1)
        · intro g hg
          rw [hnew, ← htklen, List.drop_append] at hg
          rw [List.drop_append_of_le_length hppos] at hg
          rcases List.mem_append.mp hg with h1 | h1
          · exact Or.inl (hpartsGood g (List.drop_subset _ _ h1))
          · apply hsuf
            rw [hdropcons]
            exact List.mem_cons_of_mem _ h1
        · rw [hnew, ← htklen, List.drop_append, List.drop_append_of_le_length hppos]
          rw [List.map_append, List.sum_append]
          have hsum1 : ((P.drop 1).map fieldFuel).sum = (P.drop 1).length :=
            sum_fieldFuel_ones _ (fun g hg => by
              have := hpartsGood g (List.drop_subset _ _ hg)
              omega)
          rw [hsum1, List.length_drop]
          have hplen : P.length ≤ (splitNl2 f.value).length + 1 :=
            splitField_length_le f
          have hfl : fieldFuel f = (splitNl2 f.value).length + 2 := by
            rw [fieldFuel, if_pos hbig]
          omega
      · rw [if_neg hbig]
        apply ih (idx + 1) fields ?_ ?_ ?_
        · intro g hg
          rw [List.take_succ] at hg
          rcases List.mem_append.mp hg with h1 | h1
          · exact hpre g h1
          · rw [hget] at h1
            simp at h1
            rw [h1]
            omega
        · intro g hg
          apply hsuf
          rw [hdropcons]
          exact List.mem_cons_of_mem _ hg
        · have hff : fieldFuel f = 1 := by rw [fieldFuel, if_neg hbig]
          omega

/-- Claim C4, amended.  `send_discord_message` splits oversized fields
at double-newline boundaries: provided every double-newline segment of
every field value is at most 1022 characters, every field value of the
embed actually posted is at most 1024 characters.  `_send_discord_embed`
in `src/bga_stats.py` performs no splitting or truncation: the field
values it posts are exactly the statistics lines of its message blocks,
of whatever length they happen to be. -/
theorem c4_amended (e : DEmbed) (blocks : List Str)
    (h : ∀ f ∈ e.fields, ∀ s ∈ splitNl2 f.value, s.length ≤ 1022) :
    (∀ f ∈ (send_discord_message e).fields, f.value.length ≤ 1024) ∧
    ((send_discord_embed blocks).fields.map (fun f => f.value) =
      blocks.map (fun b => joinNl1 ((splitNl1 b).tail))) := by
  constructor
  · intro f hf
    apply processFields_good ((e.fields.map fieldFuel).sum + 1) 0 e.fields ?_ ?_ ?_ f hf
    · intro g hg
      simp at hg
    · intro g hg
      rw [List.drop_zero] at hg
      exact Or.inr (h g hg)
    · rw [List.drop_zero]
  · simp [send_discord_embed]

/-- A concrete oversized two-segment field: two 600-character segments
separated by a double newline (1202 characters in all). -/
def c4WField : DField :=
  { name := strOf "📈 TOP 10 PREDICTED RISERS"
    value := List.replicate 600 'a' ++ strOf "\n\n" ++ List.replicate 600 'b'
    inline := false }

set_option maxRecDepth 400000 in
/-- Witness for the amended claim C4: the concrete 1202-character field
has both its segments within 1022 characters, and after the splitting
pass every posted field value is within 1024 characters. -/
theorem c4_amended_witness :
    (∀ f ∈ (DEmbed.mk (strOf "t") none [c4WField] 0 none).fields,
      ∀ s ∈ splitNl2 f.value, s.length ≤ 1022) ∧
    (∀ f ∈ (send_discord_message (DEmbed.mk (strOf "t") none [c4WField] 0 none)).fields,
      f.value.length ≤ 1024) := by
  have hseg : ∀ f ∈ (DEmbed.mk (strOf "t") none [c4WField] 0 none).fields,
      ∀ s ∈ splitNl2 f.value, s.length ≤ 1022 := by decide
  exact ⟨hseg, (c4_amended (DEmbed.mk (strOf "t") none [c4WField] 0 none) [] hseg).1⟩

end FPLDiscord
